import Mathlib

/-!
Verification of the nori traffic-estimation program.

This file shallowly embeds the parts of the Rust sources that the
specification's claims are about:

* `src/route.rs` — the route-collection binary format (bincode with
  fixed-width little-endian integers and u64 length prefixes), its
  streaming writer with a re-seekable header, and its iterator reader.
* `src/network.rs` — the node/edge network and `bump_edges`.
* `src/polyline.rs` — splitting the network into polylines.
* `src/compare.rs` — orientation of line segments (real-number model of
  the f64 computation).
* `src/bounding_box.rs` — projected bounding boxes over an abstract
  projection.
* `src/density.rs` and `src/sampling.rs` — construction of the weighted
  density index and destination sampling.

Machine integers are modelled as `Nat`/`Int` with explicit ranges; files
are `List Nat` of bytes; Rust `HashMap`s are association lists looked up
with `alookup`; Rust panics are explicit error values.
-/

namespace Nori

/-- First-match lookup in an association list.  Models `HashMap::get`:
insertion is modelled by prepending, so the most recent binding wins. -/
def alookup {κ β : Type} [DecidableEq κ] : List (κ × β) → κ → Option β
  | [], _ => none
  | (k, b) :: rest, k' => if k = k' then some b else alookup rest k'

theorem alookup_cons {κ β : Type} [DecidableEq κ] (k k' : κ) (b : β) (l : List (κ × β)) :
    alookup ((k, b) :: l) k' = if k = k' then some b else alookup l k' := rfl

/-- Looking up after prepending a binding preserves definedness. -/
theorem alookup_isSome_cons {κ β : Type} [DecidableEq κ] (p : κ × β) (l : List (κ × β))
    (k : κ) (h : (alookup l k).isSome) : (alookup (p :: l) k).isSome := by
  rcases p with ⟨k', b⟩
  simp only [alookup]
  split <;> simp [h]

/-! ## Byte-level bincode model (`src/route.rs`)

`bincode::serialize_into` / `deserialize_from` with the default
configuration write fixed-width little-endian integers; sequences and
strings are prefixed by their length as a `u64`.  Bytes are `Nat`s below
256; a file is a `List Nat`. -/

/-- Little-endian encoding of `n` into `w` bytes (the value is taken
modulo `256 ^ w`, as fixed-width machine arithmetic does). -/
def encLE : Nat → Nat → List Nat
  | 0, _ => []
  | w + 1, n => n % 256 :: encLE w (n / 256)

/-- Little-endian decoding of `w` bytes; returns the value and the
remaining bytes, or `none` if the input is too short. -/
def decLE : Nat → List Nat → Option (Nat × List Nat)
  | 0, bs => some (0, bs)
  | _ + 1, [] => none
  | w + 1, b :: bs =>
    match decLE w bs with
    | some (n, rest) => some (b + 256 * n, rest)
    | none => none

theorem encLE_length (w n : Nat) : (encLE w n).length = w := by
  induction w generalizing n with
  | zero => rfl
  | succ w ih => simp [encLE, ih]

theorem decLE_encLE (w n : Nat) (h : n < 256 ^ w) (rest : List Nat) :
    decLE w (encLE w n ++ rest) = some (n, rest) := by
  induction w generalizing n with
  | zero =>
    have : n = 0 := by omega
    subst this
    rfl
  | succ w ih =>
    have hdiv : n / 256 < 256 ^ w := by
      have h256 : (256 : Nat) ^ (w + 1) = 256 ^ w * 256 := by ring
      omega
    simp only [encLE, List.cons_append, decLE, List.append_eq]
    rw [ih (n / 256) hdiv]
    have : n % 256 + 256 * (n / 256) = n := Nat.mod_add_div n 256
    simp [this]

/-- Two's-complement encoding of a signed integer into `w` bytes
(little-endian), as bincode writes `i32`/`i64`. -/
def encILE (w : Nat) (i : Int) : List Nat :=
  encLE w (i % (256 ^ w : Nat)).toNat

/-- Decoding of a `w`-byte two's-complement signed integer. -/
def decILE (w : Nat) (bs : List Nat) : Option (Int × List Nat) :=
  match decLE w bs with
  | some (n, rest) =>
    some (if n < 256 ^ w / 2 then (n : Int) else (n : Int) - (256 ^ w : Nat), rest)
  | none => none

theorem encILE_length (w : Nat) (i : Int) : (encILE w i).length = w := encLE_length _ _

theorem decILE_encILE (w : Nat) (i : Int)
    (hlo : -((256 ^ w : Nat) : Int) / 2 ≤ i) (hhi : i < ((256 ^ w : Nat) : Int) / 2)
    (rest : List Nat) :
    decILE w (encILE w i ++ rest) = some (i, rest) := by
  have hw : (0 : Int) < ((256 ^ w : Nat) : Int) := by
    have := Nat.pos_pow_of_pos w (show 0 < 256 by norm_num)
    exact_mod_cast this
  have hmod : 0 ≤ i % ((256 ^ w : Nat) : Int) := Int.emod_nonneg i (by omega)
  have hmodlt : i % ((256 ^ w : Nat) : Int) < ((256 ^ w : Nat) : Int) :=
    Int.emod_lt_of_pos i hw
  have htn : (((i % ((256 ^ w : Nat) : Int)).toNat : Int)) = i % ((256 ^ w : Nat) : Int) :=
    Int.toNat_of_nonneg hmod
  have htoNatlt : (i % ((256 ^ w : Nat) : Int)).toNat < 256 ^ w := by
    omega
  simp only [encILE, decILE, decLE_encLE _ _ htoNatlt rest]
  -- the decoded value folds back to `i`
  have hval : i % ((256 ^ w : Nat) : Int) = if 0 ≤ i then i else i + ((256 ^ w : Nat) : Int) := by
    rcases le_or_lt 0 i with hi | hi
    · simp only [if_pos hi]
      exact Int.emod_eq_of_lt hi (by omega)
    · simp only [if_neg (not_le.mpr hi)]
      have : (i + ((256 ^ w : Nat) : Int)) % ((256 ^ w : Nat) : Int)
          = i % ((256 ^ w : Nat) : Int) := by
        exact Int.add_emod_self
      rw [← this]
      exact Int.emod_eq_of_lt (by omega) (by omega)
  rcases le_or_lt 0 i with hi | hi
  · have : (i % ((256 ^ w : Nat) : Int)).toNat = i.toNat := by
      rw [hval, if_pos hi]
    rw [this]
    have hlt : i.toNat < 256 ^ w / 2 := by omega
    simp only [if_pos hlt]
    congr 1
    congr 1
    omega
  · have : ((i % ((256 ^ w : Nat) : Int)).toNat : Int) = i + ((256 ^ w : Nat) : Int) := by
      rw [htn, hval, if_neg (not_le.mpr hi)]
    have hge : ¬ (i % ((256 ^ w : Nat) : Int)).toNat < 256 ^ w / 2 := by omega
    simp only [if_neg hge]
    congr 1
    congr 1
    omega

/-- Length-prefixed byte sequence, as bincode writes a `String`
(u64 byte length followed by the UTF-8 bytes; we carry the raw bytes). -/
def encBytes (s : List Nat) : List Nat :=
  encLE 8 s.length ++ s

def decBytes (bs : List Nat) : Option (List Nat × List Nat) :=
  match decLE 8 bs with
  | some (n, rest) =>
    if n ≤ rest.length then some (rest.take n, rest.drop n) else none
  | none => none

theorem decBytes_encBytes (s : List Nat) (h : s.length < 256 ^ 8) (rest : List Nat) :
    decBytes (encBytes s ++ rest) = some (s, rest) := by
  simp only [encBytes, List.append_assoc, decBytes, decLE_encLE _ _ h]
  have hle : s.length ≤ (s ++ rest).length := by simp
  simp [hle, List.take_left, List.drop_left]

/-! ## Routes and the route-collection header (`src/route.rs`) -/

/-- `LatLon32`: raw latitude/longitude as `i32` values scaled by `1e6`. -/
structure LatLon32 where
  raw_lat : Int
  raw_lon : Int
  deriving DecidableEq, Repr

/-- A `Route`: start/end coordinates, traversed OSM node ids (`i64`),
and the distance.  The `f64` distance is carried as its 64-bit pattern
(a `Nat` below `2 ^ 64`); bincode writes and reads exactly those bytes,
so byte-pattern identity models route equality. -/
structure Route where
  start_coord : LatLon32
  end_coord : LatLon32
  node_ids : List Int
  distance : Nat
  deriving DecidableEq, Repr

/-- The header of a route-collection file.  The two strings are carried
as their UTF-8 bytes. -/
structure RouteCollectionHeader where
  major_version : Nat
  minor_version : Nat
  osrm_file : List Nat
  scenario : List Nat
  number_of_routes : Nat
  deriving DecidableEq, Repr

/-- Serialized size bounds that always hold for the Rust values
(`i32` coordinates, `i64` node ids, `usize` vector length, 64-bit
float pattern). -/
def ValidRoute (r : Route) : Prop :=
  -((256 ^ 4 : Nat) : Int) / 2 ≤ r.start_coord.raw_lat ∧ r.start_coord.raw_lat < ((256 ^ 4 : Nat) : Int) / 2 ∧
  -((256 ^ 4 : Nat) : Int) / 2 ≤ r.start_coord.raw_lon ∧ r.start_coord.raw_lon < ((256 ^ 4 : Nat) : Int) / 2 ∧
  -((256 ^ 4 : Nat) : Int) / 2 ≤ r.end_coord.raw_lat ∧ r.end_coord.raw_lat < ((256 ^ 4 : Nat) : Int) / 2 ∧
  -((256 ^ 4 : Nat) : Int) / 2 ≤ r.end_coord.raw_lon ∧ r.end_coord.raw_lon < ((256 ^ 4 : Nat) : Int) / 2 ∧
  r.node_ids.length < 256 ^ 8 ∧
  (∀ i ∈ r.node_ids, -((256 ^ 8 : Nat) : Int) / 2 ≤ i ∧ i < ((256 ^ 8 : Nat) : Int) / 2) ∧
  r.distance < 256 ^ 8

instance (r : Route) : Decidable (ValidRoute r) := by
  unfold ValidRoute
  infer_instance

/-- Size bounds on the header fields (`u16` versions, `usize` string
lengths, `u64` count). -/
def ValidHeader (h : RouteCollectionHeader) : Prop :=
  h.major_version < 256 ^ 2 ∧ h.minor_version < 256 ^ 2 ∧
  h.osrm_file.length < 256 ^ 8 ∧ h.scenario.length < 256 ^ 8 ∧
  h.number_of_routes < 256 ^ 8

instance (h : RouteCollectionHeader) : Decidable (ValidHeader h) := by
  unfold ValidHeader
  infer_instance

/-- Bincode serialization of a `Vec` of `i64`: u64 length prefix
followed by the elements. -/
def encIntList (l : List Int) : List Nat :=
  encLE 8 l.length ++ (l.map (encILE 8)).flatten

/-- Decoding of `n` consecutive `i64` values. -/
def decIntListN : Nat → List Nat → Option (List Int × List Nat)
  | 0, bs => some ([], bs)
  | n + 1, bs =>
    match decILE 8 bs with
    | some (i, rest) =>
      match decIntListN n rest with
      | some (l, rest') => some (i :: l, rest')
      | none => none
    | none => none

def decIntList (bs : List Nat) : Option (List Int × List Nat) :=
  match decLE 8 bs with
  | some (n, rest) => decIntListN n rest
  | none => none

theorem decIntListN_enc (l : List Int)
    (h : ∀ i ∈ l, -((256 ^ 8 : Nat) : Int) / 2 ≤ i ∧ i < ((256 ^ 8 : Nat) : Int) / 2)
    (rest : List Nat) :
    decIntListN l.length ((l.map (encILE 8)).flatten ++ rest) = some (l, rest) := by
  induction l with
  | nil => rfl
  | cons a l ih =>
    have ha := h a (List.mem_cons_self a l)
    simp only [List.map_cons, List.flatten_cons, List.length_cons, List.append_assoc,
      decIntListN, decILE_encILE 8 a ha.1 ha.2]
    rw [ih (fun i hi => h i (List.mem_cons_of_mem a hi))]

theorem decIntList_enc (l : List Int)
    (hlen : l.length < 256 ^ 8)
    (h : ∀ i ∈ l, -((256 ^ 8 : Nat) : Int) / 2 ≤ i ∧ i < ((256 ^ 8 : Nat) : Int) / 2)
    (rest : List Nat) :
    decIntList (encIntList l ++ rest) = some (l, rest) := by
  simp only [encIntList, List.append_assoc, decIntList, decLE_encLE _ _ hlen]
  exact decIntListN_enc l h rest

/-- Bincode serialization of a `Route`, field by field in declaration
order (as serde derives it). -/
def encRoute (r : Route) : List Nat :=
  encILE 4 r.start_coord.raw_lat ++ encILE 4 r.start_coord.raw_lon ++
  encILE 4 r.end_coord.raw_lat ++ encILE 4 r.end_coord.raw_lon ++
  encIntList r.node_ids ++ encLE 8 r.distance

def decRoute (bs : List Nat) : Option (Route × List Nat) :=
  match decILE 4 bs with
  | some (slat, bs) =>
    match decILE 4 bs with
    | some (slon, bs) =>
      match decILE 4 bs with
      | some (elat, bs) =>
        match decILE 4 bs with
        | some (elon, bs) =>
          match decIntList bs with
          | some (ids, bs) =>
            match decLE 8 bs with
            | some (d, bs) => some (⟨⟨slat, slon⟩, ⟨elat, elon⟩, ids, d⟩, bs)
            | none => none
          | none => none
        | none => none
      | none => none
    | none => none
  | none => none

theorem decRoute_encRoute (r : Route) (hr : ValidRoute r) (rest : List Nat) :
    decRoute (encRoute r ++ rest) = some (r, rest) := by
  obtain ⟨h1, h2, h3, h4, h5, h6, h7, h8, h9, h10, h11⟩ := hr
  simp only [encRoute, List.append_assoc, decRoute,
    decILE_encILE 4 _ h1 h2, decILE_encILE 4 _ h3 h4,
    decILE_encILE 4 _ h5 h6, decILE_encILE 4 _ h7 h8,
    decIntList_enc _ h9 h10, decLE_encLE _ _ h11]

/-- Bincode serialization of the header, field by field. -/
def encHeader (h : RouteCollectionHeader) : List Nat :=
  encLE 2 h.major_version ++ encLE 2 h.minor_version ++
  encBytes h.osrm_file ++ encBytes h.scenario ++ encLE 8 h.number_of_routes

def decHeader (bs : List Nat) : Option (RouteCollectionHeader × List Nat) :=
  match decLE 2 bs with
  | some (major, bs) =>
    match decLE 2 bs with
    | some (minor, bs) =>
      match decBytes bs with
      | some (osrm, bs) =>
        match decBytes bs with
        | some (scen, bs) =>
          match decLE 8 bs with
          | some (n, bs) => some (⟨major, minor, osrm, scen, n⟩, bs)
          | none => none
        | none => none
      | none => none
    | none => none
  | none => none

theorem decHeader_encHeader (h : RouteCollectionHeader) (hv : ValidHeader h)
    (rest : List Nat) :
    decHeader (encHeader h ++ rest) = some (h, rest) := by
  obtain ⟨h1, h2, h3, h4, h5⟩ := hv
  simp only [encHeader, List.append_assoc, decHeader,
    decLE_encLE _ _ h1, decLE_encLE _ _ h2,
    decBytes_encBytes _ h3, decBytes_encBytes _ h4, decLE_encLE _ _ h5]

/-- The serialized header length depends only on the two string fields,
never on the route count (a fixed-width `u64`). -/
theorem encHeader_length (h : RouteCollectionHeader) :
    (encHeader h).length = 2 + 2 + (8 + h.osrm_file.length) + (8 + h.scenario.length) + 8 := by
  simp only [encHeader, encBytes, List.append_assoc, List.length_append, encLE_length]
  omega

/-! ## Route-collection writer and reader (`src/route.rs`) -/

/-- The state of a `RouteCollectionWriter`: the bytes written so far and
the in-memory header. -/
structure WriterState where
  file : List Nat
  header : RouteCollectionHeader
  deriving DecidableEq, Repr

/-- `RouteCollectionWriter::new`: create the file and write the initial
header with `number_of_routes = 0` (versions are `(0, 2)`). -/
def routeCollectionWriterNew (osrm_file scenario : List Nat) : WriterState :=
  let header : RouteCollectionHeader := ⟨0, 2, osrm_file, scenario, 0⟩
  ⟨encHeader header, header⟩

/-- `RouteCollectionWriter::write_route`: append the serialized route
and increment the in-memory count. -/
def writeRoute (w : WriterState) (r : Route) : WriterState :=
  ⟨w.file ++ encRoute r,
   { w.header with number_of_routes := w.header.number_of_routes + 1 }⟩

def writeRoutes (w : WriterState) (rs : List Route) : WriterState :=
  rs.foldl writeRoute w

/-- `RouteCollectionWriter::finish`: seek to the start of the file and
rewrite the header with the true count, leaving the rest of the file as
it was.  Returns the final file contents. -/
def finishWriter (w : WriterState) : List Nat :=
  encHeader w.header ++ w.file.drop (encHeader w.header).length

/-- `RouteCollectionReader::new`: read the header from the start of the
file.  Returns the header and the remaining bytes, or `none` on a
deserialization failure.  No version check is performed. -/
def routeCollectionReaderNew (file : List Nat) :
    Option (RouteCollectionHeader × List Nat) :=
  decHeader file

/-- The reader as an iterator: yield `count` items, each either a
decoded route or a decode failure (`none` item).  After a failed decode
the Rust stream position is unspecified, so no further items are
modelled past the first failure. -/
def readRoutes : Nat → List Nat → List (Option Route)
  | 0, _ => []
  | n + 1, bs =>
    match decRoute bs with
    | some (r, rest) => some r :: readRoutes n rest
    | none => [none]

theorem writeRoutes_file (w : WriterState) (rs : List Route) :
    (writeRoutes w rs).file = w.file ++ (rs.map encRoute).flatten ∧
    (writeRoutes w rs).header =
      { w.header with number_of_routes := w.header.number_of_routes + rs.length } := by
  induction rs generalizing w with
  | nil => simp [writeRoutes]
  | cons r rs ih =>
    have h := ih (writeRoute w r)
    simp only [writeRoutes, List.foldl_cons] at h ⊢
    refine ⟨?_, ?_⟩
    · rw [h.1]
      simp [writeRoute]
    · rw [h.2]
      simp only [writeRoute, List.length_cons]
      congr 1
      omega

theorem readRoutes_enc (rs : List Route) (h : ∀ r ∈ rs, ValidRoute r) (rest : List Nat) :
    readRoutes rs.length ((rs.map encRoute).flatten ++ rest) = rs.map some := by
  induction rs with
  | nil => rfl
  | cons r rs ih =>
    simp only [List.map_cons, List.flatten_cons, List.length_cons, List.append_assoc,
      readRoutes, decRoute_encRoute r (h r (List.mem_cons_self r rs))]
    rw [ih (fun x hx => h x (List.mem_cons_of_mem r hx))]

/-- Claim C1: round-trip of the route-collection file.  Writing any
sequence of `k` routes with `write_route`, calling `finish`, and
reading the file back with `RouteCollectionReader` yields a header
whose route count is `k` and exactly those `k` routes, equal and in the
same order. -/
theorem route_collection_roundtrip (osrm_file scenario : List Nat) (routes : List Route)
    (hosrm : osrm_file.length < 256 ^ 8) (hscen : scenario.length < 256 ^ 8)
    (hroutes : ∀ r ∈ routes, ValidRoute r) (hk : routes.length < 256 ^ 8) :
    ∃ rest,
      routeCollectionReaderNew
          (finishWriter (writeRoutes (routeCollectionWriterNew osrm_file scenario) routes)) =
        some (⟨0, 2, osrm_file, scenario, routes.length⟩, rest) ∧
      readRoutes routes.length rest = routes.map some := by
  have hw := writeRoutes_file (routeCollectionWriterNew osrm_file scenario) routes
  have hfile : (writeRoutes (routeCollectionWriterNew osrm_file scenario) routes).file =
      encHeader ⟨0, 2, osrm_file, scenario, 0⟩ ++ (routes.map encRoute).flatten := hw.1
  have hhdr : (writeRoutes (routeCollectionWriterNew osrm_file scenario) routes).header =
      ⟨0, 2, osrm_file, scenario, routes.length⟩ := by
    rw [hw.2]
    simp [routeCollectionWriterNew]
  have hlen : (encHeader (⟨0, 2, osrm_file, scenario, routes.length⟩ : RouteCollectionHeader)).length =
      (encHeader (⟨0, 2, osrm_file, scenario, 0⟩ : RouteCollectionHeader)).length := by
    rw [encHeader_length, encHeader_length]
  refine ⟨(routes.map encRoute).flatten, ?_, ?_⟩
  · unfold routeCollectionReaderNew finishWriter
    rw [hhdr, hfile, hlen, List.drop_left]
    exact decHeader_encHeader _ ⟨by norm_num, by norm_num, hosrm, hscen, hk⟩ _
  · simpa using readRoutes_enc routes hroutes []

/-- Concrete instance of the round-trip theorem: two routes written and
read back (the spec's concrete scenario 4, with the float distances
carried as 64-bit patterns). -/
theorem route_collection_roundtrip_witness :
    ∃ rest,
      routeCollectionReaderNew
          (finishWriter (writeRoutes (routeCollectionWriterNew [111] [115])
            [⟨⟨1000000, 2000000⟩, ⟨3000000, 4000000⟩, [10, 20, 30], 1234⟩,
             ⟨⟨5000000, 6000000⟩, ⟨7000000, 8000000⟩, [40, 50], 789⟩])) =
        some (⟨0, 2, [111], [115], 2⟩, rest) ∧
      readRoutes 2 rest =
        [some ⟨⟨1000000, 2000000⟩, ⟨3000000, 4000000⟩, [10, 20, 30], 1234⟩,
         some ⟨⟨5000000, 6000000⟩, ⟨7000000, 8000000⟩, [40, 50], 789⟩] :=
  route_collection_roundtrip [111] [115]
    [⟨⟨1000000, 2000000⟩, ⟨3000000, 4000000⟩, [10, 20, 30], 1234⟩,
     ⟨⟨5000000, 6000000⟩, ⟨7000000, 8000000⟩, [40, 50], 789⟩]
    (by norm_num) (by norm_num) (by decide) (by norm_num)

/-- Claim C10: `finish` only rewrites the initial header bytes.  The
header serialized at `finish` has exactly the byte length of the one
written at `new` (strings unchanged, fixed-width count), the file
length is unchanged, and every byte past the header region — i.e.
every previously written route record — is byte-for-byte unchanged. -/
theorem finish_rewrites_only_header (osrm_file scenario : List Nat) (routes : List Route) :
    (encHeader (writeRoutes (routeCollectionWriterNew osrm_file scenario) routes).header).length =
      (encHeader (routeCollectionWriterNew osrm_file scenario).header).length ∧
    (finishWriter (writeRoutes (routeCollectionWriterNew osrm_file scenario) routes)).length =
      (writeRoutes (routeCollectionWriterNew osrm_file scenario) routes).file.length ∧
    (finishWriter (writeRoutes (routeCollectionWriterNew osrm_file scenario) routes)).drop
        (encHeader (routeCollectionWriterNew osrm_file scenario).header).length =
      (writeRoutes (routeCollectionWriterNew osrm_file scenario) routes).file.drop
        (encHeader (routeCollectionWriterNew osrm_file scenario).header).length ∧
    (writeRoutes (routeCollectionWriterNew osrm_file scenario) routes).file.drop
        (encHeader (routeCollectionWriterNew osrm_file scenario).header).length =
      (routes.map encRoute).flatten := by
  have hw := writeRoutes_file (routeCollectionWriterNew osrm_file scenario) routes
  have hlen : (encHeader (writeRoutes (routeCollectionWriterNew osrm_file scenario) routes).header).length =
      (encHeader (routeCollectionWriterNew osrm_file scenario).header).length := by
    rw [encHeader_length, encHeader_length, hw.2]
  have hfile := hw.1
  refine ⟨hlen, ?_, ?_, ?_⟩
  · unfold finishWriter
    rw [hfile, hw.2]
    simp only [routeCollectionWriterNew, List.length_append, List.length_drop,
      encHeader_length]
    omega
  · unfold finishWriter
    rw [← hlen, List.drop_left]
  · rw [hfile]
    simp only [routeCollectionWriterNew]
    exact List.drop_left _ _

/-- Claim C4 counterexample: a file whose header carries major version
999 (the writer's own major version is 0) is accepted by
`RouteCollectionReader::new` — the reader performs no version check. -/
theorem reader_accepts_incompatible_major :
    routeCollectionReaderNew (encHeader ⟨999, 0, [], [], 0⟩) =
      some (⟨999, 0, [], [], 0⟩, []) ∧ (999 : Nat) ≠ 0 := by
  constructor
  · have := decHeader_encHeader (⟨999, 0, [], [], 0⟩ : RouteCollectionHeader)
      ⟨by norm_num, by norm_num, by norm_num, by norm_num, by norm_num⟩ []
    simpa [routeCollectionReaderNew] using this
  · norm_num

/-- Claim C4 (amended): `RouteCollectionReader::new` reads the header —
which does carry `(major, minor)` — but performs no version check: it
accepts any file with a well-formed header, whatever the major
version. -/
theorem reader_ignores_version (h : RouteCollectionHeader) (rest : List Nat)
    (hv : ValidHeader h) :
    routeCollectionReaderNew (encHeader h ++ rest) = some (h, rest) :=
  decHeader_encHeader h hv rest

/-- Instance of `reader_ignores_version` at a concrete header with a
non-zero major version. -/
theorem reader_ignores_version_witness :
    routeCollectionReaderNew (encHeader ⟨7, 1, [120], [121], 5⟩ ++ [255]) =
      some (⟨7, 1, [120], [121], 5⟩, [255]) :=
  reader_ignores_version ⟨7, 1, [120], [121], 5⟩ [255]
    ⟨by norm_num, by norm_num, by norm_num, by norm_num, by norm_num⟩

/-! ## The road network and `bump_edges` (`src/network.rs`) -/

/-- A network node: OSM id (`i64`) and raw scaled coordinates (`i32`). -/
structure Node where
  osm_node_id : Int
  raw_lat : Int
  raw_lon : Int
  deriving DecidableEq, Repr

/-- A directed network edge between dense node indices, with its
traversal counter (`number`). -/
structure Edge where
  source_node_id : Nat
  target_node_id : Nat
  number : Nat
  deriving DecidableEq, Repr

/-- The network: nodes, edges, the `(source, target) → edge index` map
and the `OSM id → dense node index` map (`HashMap`s modelled as
association lists with first-match lookup). -/
structure Network where
  nodes_vec : List Node
  edges_vec : List Edge
  edges_map : List ((Nat × Nat) × Nat)
  osm_2_node_id : List (Int × Nat)
  deriving DecidableEq, Repr

/-- Increment the counter of the edge at index `i`
(`self.edges_vec[idx].number += 1`; an out-of-range index would panic
in Rust and is a no-op here — the claims all assume in-range indices). -/
def bumpAt : List Edge → Nat → List Edge
  | [], _ => []
  | e :: es, 0 => { e with number := e.number + 1 } :: es
  | e :: es, i + 1 => e :: bumpAt es i

/-- One window of `Network::bump_edges`: resolve both OSM ids, look up
the directed edge `(a, b)`, on absence the reversed edge `(b, a)`, and
bump the found edge's counter; on any miss the network is returned
unchanged (the reverse-miss case only prints a message). -/
def bumpPair (net : Network) (u v : Int) : Network :=
  match alookup net.osm_2_node_id u, alookup net.osm_2_node_id v with
  | some a, some b =>
    match alookup net.edges_map (a, b) with
    | some i => { net with edges_vec := bumpAt net.edges_vec i }
    | none =>
      match alookup net.edges_map (b, a) with
      | some i => { net with edges_vec := bumpAt net.edges_vec i }
      | none => net
  | _, _ => net

/-- `Network::bump_edges`: process every consecutive pair of the given
OSM id sequence (`nodes.windows(2)`). -/
def bumpEdges (net : Network) (nodes : List Int) : Network :=
  (nodes.zip nodes.tail).foldl (fun n p => bumpPair n p.1 p.2) net

theorem bumpAt_get (es : List Edge) (i j : Nat) :
    (bumpAt es i).get? j =
      if j = i then (es.get? j).map (fun e => { e with number := e.number + 1 })
      else es.get? j := by
  induction es generalizing i j with
  | nil => simp [bumpAt]
  | cons e es ih =>
    cases i with
    | zero =>
      cases j with
      | zero => simp [bumpAt]
      | succ j => simp [bumpAt]
    | succ i =>
      cases j with
      | zero => simp [bumpAt]
      | succ j =>
        simp only [bumpAt, List.get?_cons_succ, ih i j]
        by_cases h : j = i
        · simp [h]
        · simp [h, fun hc => h (Nat.succ_injective hc)]

/-- Claim C2: `bump_edges` processes each consecutive pair `(u, v)`: it
resolves both node ids, looks up the directed edge `(u, v)`, on absence
the reversed edge `(v, u)`; a hit bumps exactly that edge's counter by
one (all other edges and all other fields untouched), and a miss —
unknown node or unknown edge — leaves the network unchanged.  In
particular `bump_edges [u, v, w]` bumps the edge of `(u, v)` and the
edge of `(v, w)`. -/
theorem bump_edges_spec (net : Network) (u v w : Int) :
    (bumpEdges net [u, v, w] = bumpPair (bumpPair net u v) v w) ∧
    (∀ x y, alookup net.osm_2_node_id x = none ∨ alookup net.osm_2_node_id y = none →
      bumpPair net x y = net) ∧
    (∀ x y a b, alookup net.osm_2_node_id x = some a →
      alookup net.osm_2_node_id y = some b →
      alookup net.edges_map (a, b) = none → alookup net.edges_map (b, a) = none →
      bumpPair net x y = net) ∧
    (∀ x y a b i, alookup net.osm_2_node_id x = some a →
      alookup net.osm_2_node_id y = some b →
      alookup net.edges_map (a, b) = some i →
      bumpPair net x y = { net with edges_vec := bumpAt net.edges_vec i }) ∧
    (∀ x y a b i, alookup net.osm_2_node_id x = some a →
      alookup net.osm_2_node_id y = some b →
      alookup net.edges_map (a, b) = none → alookup net.edges_map (b, a) = some i →
      bumpPair net x y = { net with edges_vec := bumpAt net.edges_vec i }) ∧
    (∀ i j k, ((bumpAt (bumpAt net.edges_vec i) j).get? k) =
      if k = j then ((bumpAt net.edges_vec i).get? k).map
        (fun e => { e with number := e.number + 1 })
      else if k = i then (net.edges_vec.get? k).map
        (fun e => { e with number := e.number + 1 })
      else net.edges_vec.get? k) := by
  refine ⟨rfl, ?_, ?_, ?_, ?_, ?_⟩
  · intro x y h
    rcases h with h | h
    · cases hy : alookup net.osm_2_node_id y <;> simp [bumpPair, h, hy]
    · cases hx : alookup net.osm_2_node_id x <;> simp [bumpPair, h, hx]
  · intro x y a b hx hy hab hba
    simp [bumpPair, hx, hy, hab, hba]
  · intro x y a b i hx hy hab
    simp [bumpPair, hx, hy, hab]
  · intro x y a b i hx hy hab hba
    simp [bumpPair, hx, hy, hab, hba]
  · intro i j k
    rw [bumpAt_get, bumpAt_get]

/-- Concrete instance of `bump_edges_spec`: a two-edge network where
`bump_edges [1, 2, 3]` hits edge 0 forward and edge 1 reversed, and an
unknown id leaves the network unchanged. -/
theorem bump_edges_spec_witness :
    bumpPair
        (⟨[⟨1, 0, 0⟩, ⟨2, 0, 0⟩, ⟨3, 0, 0⟩],
          [⟨0, 1, 0⟩, ⟨2, 1, 0⟩],
          [((0, 1), 0), ((2, 1), 1)],
          [(1, 0), (2, 1), (3, 2)]⟩ : Network) 1 2 =
      { (⟨[⟨1, 0, 0⟩, ⟨2, 0, 0⟩, ⟨3, 0, 0⟩],
          [⟨0, 1, 0⟩, ⟨2, 1, 0⟩],
          [((0, 1), 0), ((2, 1), 1)],
          [(1, 0), (2, 1), (3, 2)]⟩ : Network) with
        edges_vec := bumpAt [⟨0, 1, 0⟩, ⟨2, 1, 0⟩] 0 } ∧
    bumpPair
        (⟨[⟨1, 0, 0⟩, ⟨2, 0, 0⟩, ⟨3, 0, 0⟩],
          [⟨0, 1, 0⟩, ⟨2, 1, 0⟩],
          [((0, 1), 0), ((2, 1), 1)],
          [(1, 0), (2, 1), (3, 2)]⟩ : Network) 99 2 =
      (⟨[⟨1, 0, 0⟩, ⟨2, 0, 0⟩, ⟨3, 0, 0⟩],
        [⟨0, 1, 0⟩, ⟨2, 1, 0⟩],
        [((0, 1), 0), ((2, 1), 1)],
        [(1, 0), (2, 1), (3, 2)]⟩ : Network) := by
  constructor
  · exact (bump_edges_spec _ 1 2 3).2.2.2.1 1 2 0 1 0 (by decide) (by decide) (by decide)
  · exact (bump_edges_spec _ 1 2 3).2.1 99 2 (Or.inl (by decide))

/-! ## Polyline construction (`src/polyline.rs`)

`PolylineCollection::new` builds an adjacency map from the network's
edges, then follows edges into polylines.  The `HashMap` iteration
order of the two passes is unspecified in Rust, so the passes are
parameterized by an arbitrary enumeration `order` of node ids; the
loop inside `follow` is modelled with explicit fuel, and exhausting the
fuel (or indexing a missing adjacency key, which would panic in Rust)
yields `none`.  Termination is the theorem that the result is never
`none`.  Points are carried as the nodes' raw coordinate pairs. -/

/-- An adjacency entry: the node's point and its neighbor list (one
occurrence per directed edge). -/
abbrev AdjaEntry := (Int × Int) × List Int

abbrev Adja := List (Int × AdjaEntry)

/-- `adja.entry(k).and_modify(push n).or_insert((pt, vec![n]))`. -/
def adjaInsert : Adja → Int → (Int × Int) → Int → Adja
  | [], k, pt, n => [(k, (pt, [n]))]
  | (k', e) :: rest, k, pt, n =>
    if k' = k then (k', (e.1, e.2 ++ [n])) :: rest
    else (k', e) :: adjaInsert rest k pt n

/-- Build the adjacency graph from the network's edges: each directed
edge records both endpoints as neighbors of each other. -/
def buildAdja (edges : List (Node × Node)) : Adja :=
  edges.foldl
    (fun adja e =>
      adjaInsert
        (adjaInsert adja e.1.osm_node_id (e.1.raw_lat, e.1.raw_lon) e.2.osm_node_id)
        e.2.osm_node_id (e.2.raw_lat, e.2.raw_lon) e.1.osm_node_id)
    []

/-- The neighbor list of `k` (empty if `k` is not a key). -/
def nbrs (adja : Adja) (k : Int) : List Int :=
  match alookup adja k with
  | some e => e.2
  | none => []

/-- The mutable state of `PolylineCollection::new`: the polylines built
so far, the edge-membership map, and the set of processed edges. -/
structure PolyState where
  polylines : List (List (Int × (Int × Int)))
  membership : List ((Int × Int) × Nat)
  seen : List (Int × Int)
  deriving DecidableEq, Repr

/-- The loop inside the `follow` closure: append the current node, mark
the incoming edge as seen and as a member of the polyline, stop at a
node of degree ≠ 2 or at a node already in the polyline's node set,
otherwise advance to the neighbor that is not the previous node. -/
def followLoop (adja : Adja) (polyId : Nat) :
    Nat → Int → Int → AdjaEntry → List (Int × (Int × Int)) → List Int → PolyState →
    Option PolyState
  | 0, _, _, _, _, _, _ => none
  | fuel + 1, prev, curId, cur, poly, set, st =>
    let poly' := poly ++ [(curId, cur.1)]
    let st' : PolyState :=
      { st with membership := ((prev, curId), polyId) :: st.membership,
                seen := (prev, curId) :: st.seen }
    if cur.2.length ≠ 2 then
      some { st' with polylines := st'.polylines ++ [poly'] }
    else if curId ∈ set then
      some { st' with polylines := st'.polylines ++ [poly'] }
    else
      match cur.2 with
      | [n0, n1] =>
        let next := if n0 = prev then n1 else n0
        match alookup adja next with
        | some cur' => followLoop adja polyId fuel curId next cur' poly' (curId :: set) st'
        | none => none
      | _ => none

/-- The `follow` closure: abort if the first segment was processed in
either orientation, otherwise mark it, open a new polyline and run the
loop.  The fuel `adja.length + 1` bounds the loop's iterations (each
non-final iteration adds a fresh node to the polyline's node set). -/
def follow (adja : Adja) (firstPt : Int × Int) (firstId secondId : Int)
    (st : PolyState) : Option PolyState :=
  if (firstId, secondId) ∈ st.seen ∨ (secondId, firstId) ∈ st.seen then
    some st
  else
    let polyId := st.polylines.length
    let st' : PolyState :=
      { st with seen := (firstId, secondId) :: st.seen,
                membership := ((firstId, secondId), polyId) :: st.membership }
    match alookup adja secondId with
    | some cur =>
      followLoop adja polyId (adja.length + 1) firstId secondId cur
        [(firstId, firstPt)] [firstId] st'
    | none => none

/-- Fold a fallible step over a list, stopping at the first `none`. -/
def optFold {α : Type} (f : PolyState → α → Option PolyState) :
    PolyState → List α → Option PolyState
  | st, [] => some st
  | st, a :: rest =>
    match f st a with
    | some st' => optFold f st' rest
    | none => none

/-- First pass over the adjacency entries: start polylines from every
node of degree ≠ 2, following each of its neighbors. -/
def processEntry2 (adja : Adja) (st : PolyState) (id : Int) : Option PolyState :=
  match alookup adja id with
  | some (pt, ns) =>
    if ns.length ≠ 2 then optFold (fun s n => follow adja pt id n s) st ns
    else some st
  | none => some st

/-- Second pass: start polylines from both neighbors of every degree-2
node, covering pure cycles. -/
def processEntry3 (adja : Adja) (st : PolyState) (id : Int) : Option PolyState :=
  match alookup adja id with
  | some (pt, ns) =>
    match ns with
    | [n0, n1] =>
      match follow adja pt id n0 st with
      | some st' => follow adja pt id n1 st'
      | none => none
    | _ => some st
  | none => some st

/-- `PolylineCollection::new`, with the hash-map iteration order of the
two passes abstracted as `order`. -/
def polylineCollectionNew (order : List Int) (edges : List (Node × Node)) :
    Option PolyState :=
  match optFold (processEntry2 (buildAdja edges)) ⟨[], [], []⟩ order with
  | some st => optFold (processEntry3 (buildAdja edges)) st order
  | none => none

/-- `PolylineCollection::lookup_edge`: consult the membership map for
the edge, then for the reversed edge. -/
def lookup_edge (st : PolyState) (e : Int × Int) : Option Nat :=
  match alookup st.membership e with
  | some i => some i
  | none => alookup st.membership (e.2, e.1)

theorem alookup_adjaInsert (adja : Adja) (k : Int) (pt : Int × Int) (n : Int) (q : Int) :
    alookup (adjaInsert adja k pt n) q =
      if k = q then
        match alookup adja k with
        | some e => some (e.1, e.2 ++ [n])
        | none => some (pt, [n])
      else alookup adja q := by
  induction adja with
  | nil =>
    by_cases h : k = q <;> simp [adjaInsert, alookup, h]
  | cons entry rest ih =>
    obtain ⟨k0, e0⟩ := entry
    simp only [adjaInsert]
    by_cases h0 : k0 = k
    · subst h0
      by_cases hq : k0 = q <;> simp [alookup, hq]
    · simp only [if_neg h0, alookup]
      by_cases hq : k0 = q
      · subst hq
        have hkq : ¬ k = k0 := fun hc => h0 hc.symm
        simp [if_neg hkq, alookup, if_neg h0]
      · simp only [if_neg hq, ih, alookup, if_neg h0]

theorem nbrs_adjaInsert (adja : Adja) (k : Int) (pt : Int × Int) (n : Int) (q : Int) :
    nbrs (adjaInsert adja k pt n) q = if k = q then nbrs adja k ++ [n] else nbrs adja q := by
  unfold nbrs
  rw [alookup_adjaInsert]
  by_cases h : k = q
  · simp only [if_pos h]
    cases alookup adja k <;> simp
  · simp only [if_neg h]

theorem alookup_isSome_adjaInsert (adja : Adja) (k : Int) (pt : Int × Int) (n : Int) (q : Int) :
    (alookup (adjaInsert adja k pt n) q).isSome ↔ k = q ∨ (alookup adja q).isSome := by
  rw [alookup_adjaInsert]
  by_cases h : k = q
  · subst h
    cases alookup adja k <;> simp
  · simp [h]

/-- Every neighbor recorded in the adjacency map is itself a key. -/
def AdjaClosed (adja : Adja) : Prop :=
  ∀ k x, x ∈ nbrs adja k → (alookup adja x).isSome

theorem adjaClosed_step (adja : Adja) (e : Node × Node) (h : AdjaClosed adja) :
    AdjaClosed
      (adjaInsert
        (adjaInsert adja e.1.osm_node_id (e.1.raw_lat, e.1.raw_lon) e.2.osm_node_id)
        e.2.osm_node_id (e.2.raw_lat, e.2.raw_lon) e.1.osm_node_id) := by
  intro k x hx
  simp only [nbrs_adjaInsert] at hx
  rw [alookup_isSome_adjaInsert, alookup_isSome_adjaInsert]
  by_cases h2 : e.2.osm_node_id = k
  · rw [if_pos h2] at hx
    rcases List.mem_append.mp hx with hx | hx
    · by_cases h1 : e.1.osm_node_id = e.2.osm_node_id
      · rw [if_pos h1] at hx
        rcases List.mem_append.mp hx with hx | hx
        · exact Or.inr (Or.inr (h _ _ hx))
        · simp only [List.mem_singleton] at hx
          exact Or.inl hx.symm
      · rw [if_neg h1] at hx
        exact Or.inr (Or.inr (h _ _ hx))
    · simp only [List.mem_singleton] at hx
      exact Or.inr (Or.inl hx.symm)
  · rw [if_neg h2] at hx
    by_cases h1 : e.1.osm_node_id = k
    · rw [if_pos h1] at hx
      rcases List.mem_append.mp hx with hx | hx
      · exact Or.inr (Or.inr (h _ _ hx))
      · simp only [List.mem_singleton] at hx
        exact Or.inl hx.symm
    · rw [if_neg h1] at hx
      exact Or.inr (Or.inr (h _ _ hx))

theorem adjaClosed_buildAdja (edges : List (Node × Node)) : AdjaClosed (buildAdja edges) := by
  have aux : ∀ (l : List (Node × Node)) (adja : Adja), AdjaClosed adja →
      AdjaClosed (l.foldl
        (fun adja e =>
          adjaInsert
            (adjaInsert adja e.1.osm_node_id (e.1.raw_lat, e.1.raw_lon) e.2.osm_node_id)
            e.2.osm_node_id (e.2.raw_lat, e.2.raw_lon) e.1.osm_node_id) adja) := by
    intro l
    induction l with
    | nil => intro adja h; exact h
    | cons e rest ih =>
      intro adja h
      exact ih _ (adjaClosed_step adja e h)
  refine aux edges [] ?_
  intro k x hx
  simp [nbrs, alookup] at hx

theorem mem_nbrs_step (adja : Adja) (e : Node × Node) (k x : Int) (h : x ∈ nbrs adja k) :
    x ∈ nbrs
      (adjaInsert
        (adjaInsert adja e.1.osm_node_id (e.1.raw_lat, e.1.raw_lon) e.2.osm_node_id)
        e.2.osm_node_id (e.2.raw_lat, e.2.raw_lon) e.1.osm_node_id) k := by
  simp only [nbrs_adjaInsert]
  by_cases h2 : e.2.osm_node_id = k
  · rw [if_pos h2]
    refine List.mem_append_left _ ?_
    by_cases h1 : e.1.osm_node_id = e.2.osm_node_id
    · rw [if_pos h1]
      refine List.mem_append_left _ ?_
      rw [h1, h2]
      exact h
    · rw [if_neg h1, h2]
      exact h
  · rw [if_neg h2]
    by_cases h1 : e.1.osm_node_id = k
    · rw [if_pos h1]
      refine List.mem_append_left _ ?_
      rw [h1]
      exact h
    · rw [if_neg h1]
      exact h

theorem mem_nbrs_buildAdja (edges : List (Node × Node)) (e : Node × Node) (he : e ∈ edges) :
    e.2.osm_node_id ∈ nbrs (buildAdja edges) e.1.osm_node_id := by
  have auxfold : ∀ (l : List (Node × Node)) (adja : Adja) (k x : Int), x ∈ nbrs adja k →
      x ∈ nbrs (l.foldl
        (fun adja e =>
          adjaInsert
            (adjaInsert adja e.1.osm_node_id (e.1.raw_lat, e.1.raw_lon) e.2.osm_node_id)
            e.2.osm_node_id (e.2.raw_lat, e.2.raw_lon) e.1.osm_node_id) adja) k := by
    intro l
    induction l with
    | nil => intro adja k x h; exact h
    | cons e0 rest ih =>
      intro adja k x h
      exact ih _ _ _ (mem_nbrs_step adja e0 k x h)
  have auxstep : ∀ (adja : Adja) (e : Node × Node),
      e.2.osm_node_id ∈ nbrs
        (adjaInsert
          (adjaInsert adja e.1.osm_node_id (e.1.raw_lat, e.1.raw_lon) e.2.osm_node_id)
          e.2.osm_node_id (e.2.raw_lat, e.2.raw_lon) e.1.osm_node_id) e.1.osm_node_id := by
    intro adja e
    simp only [nbrs_adjaInsert]
    by_cases h1 : e.2.osm_node_id = e.1.osm_node_id
    · rw [if_pos h1]
      refine List.mem_append_right _ ?_
      simp [h1]
    · rw [if_neg h1]
      simp
  have main : ∀ (l : List (Node × Node)) (adja : Adja) (e : Node × Node), e ∈ l →
      e.2.osm_node_id ∈ nbrs (l.foldl
        (fun adja e =>
          adjaInsert
            (adjaInsert adja e.1.osm_node_id (e.1.raw_lat, e.1.raw_lon) e.2.osm_node_id)
            e.2.osm_node_id (e.2.raw_lat, e.2.raw_lon) e.1.osm_node_id) adja) e.1.osm_node_id := by
    intro l
    induction l with
    | nil => intro adja e he; cases he
    | cons e0 rest ih =>
      intro adja e he
      rcases List.mem_cons.mp he with h | h
      · subst h
        simp only [List.foldl_cons]
        exact auxfold rest _ _ _ (auxstep adja e)
      · simp only [List.foldl_cons]
        exact ih _ e h
  exact main edges [] e he


/-- Every seen edge has a membership entry (in the same orientation). -/
def SeenMem (st : PolyState) : Prop :=
  ∀ p ∈ st.seen, (alookup st.membership p).isSome

theorem seenMem_push (st : PolyState) (pr : Int × Int) (pid : Nat) (h : SeenMem st) :
    SeenMem { st with membership := (pr, pid) :: st.membership, seen := pr :: st.seen } := by
  intro p hp
  rcases List.mem_cons.mp hp with hp | hp
  · subst hp
    simp [alookup]
  · exact alookup_isSome_cons _ _ _ (h p hp)

theorem followLoop_inv (adja : Adja) (pid : Nat) :
    ∀ (fuel : Nat) (prev curId : Int) (cur : AdjaEntry)
      (poly : List (Int × (Int × Int))) (set : List Int) (st st' : PolyState),
      followLoop adja pid fuel prev curId cur poly set st = some st' →
      (∀ p, (alookup st.membership p).isSome → (alookup st'.membership p).isSome) ∧
      (SeenMem st → SeenMem st') := by
  intro fuel
  induction fuel with
  | zero =>
    intro prev curId cur poly set st st' h
    exact Option.noConfusion h
  | succ fuel ih =>
    intro prev curId cur poly set st st' h
    simp only [followLoop] at h
    by_cases hdeg : cur.2.length ≠ 2
    · rw [if_pos hdeg] at h
      injection h with h
      subst h
      constructor
      · intro p hp
        exact alookup_isSome_cons _ _ _ hp
      · intro hs
        exact seenMem_push st (prev, curId) pid hs
    · rw [if_neg hdeg] at h
      by_cases hset : curId ∈ set
      · rw [if_pos hset] at h
        injection h with h
        subst h
        constructor
        · intro p hp
          exact alookup_isSome_cons _ _ _ hp
        · intro hs
          exact seenMem_push st (prev, curId) pid hs
      · rw [if_neg hset] at h
        have hlen : cur.2.length = 2 := by omega
        obtain ⟨cpt, cnbrs⟩ := cur
        match cnbrs, hlen with
        | [n0, n1], _ =>
          simp only at h
          cases halk : alookup adja (if n0 = prev then n1 else n0) with
          | none => rw [halk] at h; exact Option.noConfusion h
          | some cur' =>
            rw [halk] at h
            have hrec := ih curId (if n0 = prev then n1 else n0) cur' _ (curId :: set) _ st' h
            constructor
            · intro p hp
              exact hrec.1 p (alookup_isSome_cons _ _ _ hp)
            · intro hs
              exact hrec.2 (seenMem_push st (prev, curId) pid hs)

theorem follow_inv (adja : Adja) (pt : Int × Int) (u v : Int) (st st' : PolyState)
    (h : follow adja pt u v st = some st') :
    (∀ p, (alookup st.membership p).isSome → (alookup st'.membership p).isSome) ∧
    (SeenMem st → SeenMem st') := by
  unfold follow at h
  by_cases hseen : (u, v) ∈ st.seen ∨ (v, u) ∈ st.seen
  · rw [if_pos hseen] at h
    injection h with h
    subst h
    exact ⟨fun p hp => hp, fun hs => hs⟩
  · rw [if_neg hseen] at h
    cases halk : alookup adja v with
    | none => rw [halk] at h; exact Option.noConfusion h
    | some cur =>
      rw [halk] at h
      have hrec := followLoop_inv adja st.polylines.length _ u v cur _ [u] _ st' h
      constructor
      · intro p hp
        exact hrec.1 p (alookup_isSome_cons _ _ _ hp)
      · intro hs
        refine hrec.2 ?_
        intro p hp
        rcases List.mem_cons.mp hp with hp | hp
        · subst hp
          simp [alookup]
        · exact alookup_isSome_cons _ _ _ (hs p hp)

/-- The undirected edge `(u, v)` has a membership entry in some
orientation. -/
def Covered (st : PolyState) (u v : Int) : Prop :=
  (alookup st.membership (u, v)).isSome ∨ (alookup st.membership (v, u)).isSome

theorem covered_of_follow_inv (adja : Adja) (pt : Int × Int) (w z u v : Int)
    (st st' : PolyState) (h : follow adja pt w z st = some st')
    (hc : Covered st u v) : Covered st' u v := by
  rcases hc with hc | hc
  · exact Or.inl ((follow_inv adja pt w z st st' h).1 _ hc)
  · exact Or.inr ((follow_inv adja pt w z st st' h).1 _ hc)

/-- `follow` on the edge `(u, v)` itself leaves it covered: either the
seen-check fired (and the edge was already in the membership map) or
the first segment is freshly inserted. -/
theorem follow_covers (adja : Adja) (pt : Int × Int) (u v : Int) (st st' : PolyState)
    (h : follow adja pt u v st = some st') (hs : SeenMem st) : Covered st' u v := by
  unfold follow at h
  by_cases hseen : (u, v) ∈ st.seen ∨ (v, u) ∈ st.seen
  · rw [if_pos hseen] at h
    injection h with h
    subst h
    rcases hseen with hseen | hseen
    · exact Or.inl (hs _ hseen)
    · exact Or.inr (hs _ hseen)
  · rw [if_neg hseen] at h
    cases halk : alookup adja v with
    | none => rw [halk] at h; exact Option.noConfusion h
    | some cur =>
      rw [halk] at h
      refine Or.inl ((followLoop_inv adja st.polylines.length _ u v cur _ [u] _ st' h).1 _ ?_)
      simp [alookup]

theorem optFold_pres {α : Type} (f : PolyState → α → Option PolyState)
    (P : PolyState → Prop)
    (hf : ∀ s a s', f s a = some s' → P s → P s') :
    ∀ (l : List α) (s t : PolyState), optFold f s l = some t → P s → P t := by
  intro l
  induction l with
  | nil =>
    intro s t h hp
    injection h with h
    subst h
    exact hp
  | cons a rest ih =>
    intro s t h hp
    simp only [optFold] at h
    cases hfa : f s a with
    | none => rw [hfa] at h; exact Option.noConfusion h
    | some s' =>
      rw [hfa] at h
      exact ih s' t h (hf s a s' hfa hp)

theorem optFold_mem {α : Type} (f : PolyState → α → Option PolyState)
    (P Q : PolyState → Prop) (a : α)
    (hP : ∀ s b s', f s b = some s' → P s → P s')
    (hQ : ∀ s b s', f s b = some s' → Q s → Q s')
    (ha : ∀ s s', f s a = some s' → P s → Q s') :
    ∀ (l : List α) (s t : PolyState), optFold f s l = some t → a ∈ l → P s → Q t := by
  intro l
  induction l with
  | nil =>
    intro s t _ hm
    cases hm
  | cons b rest ih =>
    intro s t h hm hp
    simp only [optFold] at h
    cases hfb : f s b with
    | none => rw [hfb] at h; exact Option.noConfusion h
    | some s' =>
      rw [hfb] at h
      rcases List.mem_cons.mp hm with hm | hm
      · subst hm
        exact optFold_pres f Q hQ rest s' t h (ha s s' hfb hp)
      · exact ih s' t h hm (hP s b s' hfb hp)

theorem processEntry2_pres (adja : Adja) (P : PolyState → Prop)
    (hP : ∀ pt id n s s', follow adja pt id n s = some s' → P s → P s')
    (st st' : PolyState) (id : Int)
    (h : processEntry2 adja st id = some st') (hp : P st) : P st' := by
  unfold processEntry2 at h
  cases halk : alookup adja id with
  | none =>
    rw [halk] at h
    injection h with h
    subst h
    exact hp
  | some e =>
    obtain ⟨pt, ns⟩ := e
    rw [halk] at h
    dsimp only at h
    by_cases hlen : ns.length ≠ 2
    · rw [if_pos hlen] at h
      exact optFold_pres _ P (fun s a s' hf hps => hP pt id a s s' hf hps) ns st st' h hp
    · rw [if_neg hlen] at h
      injection h with h
      subst h
      exact hp

theorem processEntry3_pres (adja : Adja) (P : PolyState → Prop)
    (hP : ∀ pt id n s s', follow adja pt id n s = some s' → P s → P s')
    (st st' : PolyState) (id : Int)
    (h : processEntry3 adja st id = some st') (hp : P st) : P st' := by
  unfold processEntry3 at h
  cases halk : alookup adja id with
  | none =>
    rw [halk] at h
    injection h with h
    subst h
    exact hp
  | some e =>
    obtain ⟨pt, ns⟩ := e
    rw [halk] at h
    dsimp only at h
    rcases ns with _ | ⟨n0, ns⟩
    · injection h with h
      subst h
      exact hp
    · rcases ns with _ | ⟨n1, ns⟩
      · injection h with h
        subst h
        exact hp
      · rcases ns with _ | ⟨n2, ns⟩
        · dsimp only at h
          cases h0 : follow adja pt id n0 st with
          | none => rw [h0] at h; exact Option.noConfusion h
          | some s1 =>
            rw [h0] at h
            exact hP pt id n1 s1 st' h (hP pt id n0 st s1 h0 hp)
        · injection h with h
          subst h
          exact hp

theorem processEntry2_covers (adja : Adja) (u v : Int) (pt : Int × Int) (ns : List Int)
    (halk : alookup adja u = some (pt, ns)) (hlen : ns.length ≠ 2) (hv : v ∈ ns)
    (st st' : PolyState) (h : processEntry2 adja st u = some st') (hs : SeenMem st) :
    Covered st' u v := by
  unfold processEntry2 at h
  rw [halk] at h
  dsimp only at h
  rw [if_pos hlen] at h
  exact optFold_mem (fun s n => follow adja pt u n s) SeenMem (fun s => Covered s u v) v
    (fun s b s' hf hps => (follow_inv adja pt u b s s' hf).2 hps)
    (fun s b s' hf hc => covered_of_follow_inv adja pt u b u v s s' hf hc)
    (fun s s' hf hps => follow_covers adja pt u v s s' hf hps)
    ns st st' h hv hs

theorem processEntry3_covers (adja : Adja) (u v : Int) (pt : Int × Int) (n0 n1 : Int)
    (halk : alookup adja u = some (pt, [n0, n1])) (hv : v = n0 ∨ v = n1)
    (st st' : PolyState) (h : processEntry3 adja st u = some st') (hs : SeenMem st) :
    Covered st' u v := by
  unfold processEntry3 at h
  rw [halk] at h
  dsimp only at h
  cases h0 : follow adja pt u n0 st with
  | none => rw [h0] at h; exact Option.noConfusion h
  | some s1 =>
    rw [h0] at h
    rcases hv with hv | hv
    · subst hv
      exact covered_of_follow_inv adja pt u n1 u v s1 st' h
        (follow_covers adja pt u v st s1 h0 hs)
    · subst hv
      exact follow_covers adja pt u v s1 st' h ((follow_inv adja pt u n0 st s1 h0).2 hs)

theorem lookup_edge_isSome_of_covered (st : PolyState) (u v : Int)
    (hc : Covered st u v) : (lookup_edge st (u, v)).isSome := by
  unfold lookup_edge
  cases halk : alookup st.membership (u, v) with
  | some i => simp
  | none =>
    rcases hc with hc | hc
    · rw [halk] at hc
      simp at hc
    · simpa using hc

/-- Claim C3: after `PolylineCollection::new`, every network edge
`(u, v)` belongs to exactly one polyline: there is exactly one id `i`
with `lookup_edge (u, v) = some i` (where `lookup_edge` consults
`(u, v)` and then `(v, u)`).  The hash-map iteration order of the
construction is abstracted as `order`; the hypothesis states that the
enumeration visits every adjacency key, as iterating a `HashMap`
does. -/
theorem polyline_every_edge_in_one_polyline (order : List Int) (edges : List (Node × Node))
    (st : PolyState)
    (horder : ∀ e ∈ edges, e.1.osm_node_id ∈ order)
    (hnew : polylineCollectionNew order edges = some st) :
    ∀ e ∈ edges, ∃! i, lookup_edge st (e.1.osm_node_id, e.2.osm_node_id) = some i := by
  intro e he
  unfold polylineCollectionNew at hnew
  cases h2 : optFold (processEntry2 (buildAdja edges)) ⟨[], [], []⟩ order with
  | none => rw [h2] at hnew; exact Option.noConfusion hnew
  | some stMid =>
    rw [h2] at hnew
    have hvnb : e.2.osm_node_id ∈ nbrs (buildAdja edges) e.1.osm_node_id :=
      mem_nbrs_buildAdja edges e he
    obtain ⟨pt, ns, halk, hv⟩ :
        ∃ pt ns, alookup (buildAdja edges) e.1.osm_node_id = some (pt, ns) ∧
          e.2.osm_node_id ∈ ns := by
      unfold nbrs at hvnb
      cases halk : alookup (buildAdja edges) e.1.osm_node_id with
      | none => rw [halk] at hvnb; cases hvnb
      | some en =>
        obtain ⟨p1, p2⟩ := en
        rw [halk] at hvnb
        dsimp only at hvnb
        exact ⟨p1, p2, rfl, hvnb⟩
    have hinit : SeenMem ⟨[], [], []⟩ := fun p hp => absurd hp (List.not_mem_nil p)
    have hcov : Covered st e.1.osm_node_id e.2.osm_node_id := by
      by_cases hlen : ns.length ≠ 2
      · have hmid : Covered stMid e.1.osm_node_id e.2.osm_node_id :=
          optFold_mem (processEntry2 (buildAdja edges)) SeenMem
            (fun s => Covered s e.1.osm_node_id e.2.osm_node_id) e.1.osm_node_id
            (fun s b s' hf hps => processEntry2_pres _ SeenMem
              (fun pt id n s s' hf => (follow_inv _ pt id n s s' hf).2) s s' b hf hps)
            (fun s b s' hf hc => processEntry2_pres _
              (fun s => Covered s e.1.osm_node_id e.2.osm_node_id)
              (fun pt id n s s' hf hcs =>
                covered_of_follow_inv _ pt id n _ _ s s' hf hcs) s s' b hf hc)
            (fun s s' hf hps => processEntry2_covers _ _ _ pt ns halk hlen hv s s' hf hps)
            order _ _ h2 (horder e he) hinit
        exact optFold_pres (processEntry3 (buildAdja edges))
          (fun s => Covered s e.1.osm_node_id e.2.osm_node_id)
          (fun s b s' hf hc => processEntry3_pres _
            (fun s => Covered s e.1.osm_node_id e.2.osm_node_id)
            (fun pt id n s s' hf hcs =>
              covered_of_follow_inv _ pt id n _ _ s s' hf hcs) s s' b hf hc)
          order stMid st hnew hmid
      · have hsm : SeenMem stMid :=
          optFold_pres (processEntry2 (buildAdja edges)) SeenMem
            (fun s b s' hf hps => processEntry2_pres _ SeenMem
              (fun pt id n s s' hf => (follow_inv _ pt id n s s' hf).2) s s' b hf hps)
            order _ _ h2 hinit
        have hlen2 : ns.length = 2 := by omega
        obtain ⟨n0, n1, rfl⟩ : ∃ n0 n1, ns = [n0, n1] := by
          match ns, hlen2 with
          | [n0, n1], _ => exact ⟨n0, n1, rfl⟩
        have hv01 : e.2.osm_node_id = n0 ∨ e.2.osm_node_id = n1 := by
          simpa using hv
        exact optFold_mem (processEntry3 (buildAdja edges)) SeenMem
          (fun s => Covered s e.1.osm_node_id e.2.osm_node_id) e.1.osm_node_id
          (fun s b s' hf hps => processEntry3_pres _ SeenMem
            (fun pt id n s s' hf => (follow_inv _ pt id n s s' hf).2) s s' b hf hps)
          (fun s b s' hf hc => processEntry3_pres _
            (fun s => Covered s e.1.osm_node_id e.2.osm_node_id)
            (fun pt id n s s' hf hcs =>
              covered_of_follow_inv _ pt id n _ _ s s' hf hcs) s s' b hf hc)
          (fun s s' hf hps => processEntry3_covers _ _ _ pt n0 n1 halk hv01 s s' hf hps)
          order stMid st hnew (horder e he) hsm
    have hsome := lookup_edge_isSome_of_covered st _ _ hcov
    obtain ⟨i, hi⟩ := Option.isSome_iff_exists.mp hsome
    exact ⟨i, hi, fun j hj => by rw [hi] at hj; exact (Option.some.inj hj).symm⟩

/-- Concrete instance of the polyline membership invariant: a two-edge
path network, constructed with the natural key order. -/
theorem polyline_every_edge_in_one_polyline_witness :
    ∃! i, lookup_edge
        ⟨[[(1, (10, 10)), (2, (20, 20)), (3, (30, 30))]],
         [((2, 3), 0), ((1, 2), 0), ((1, 2), 0)],
         [(2, 3), (1, 2), (1, 2)]⟩
        ((1 : Int), (2 : Int)) = some i :=
  polyline_every_edge_in_one_polyline [1, 2, 3]
    [(⟨1, 10, 10⟩, ⟨2, 20, 20⟩), (⟨2, 20, 20⟩, ⟨3, 30, 30⟩)]
    ⟨[[(1, (10, 10)), (2, (20, 20)), (3, (30, 30))]],
     [((2, 3), 0), ((1, 2), 0), ((1, 2), 0)],
     [(2, 3), (1, 2), (1, 2)]⟩
    (by decide) (by decide)
    (⟨1, 10, 10⟩, ⟨2, 20, 20⟩) (by decide)

/-- Number of adjacency keys not yet in the polyline's node set — the
loop variant of `follow`. -/
def missing (adja : Adja) (set : List Int) : Nat :=
  match adja with
  | [] => 0
  | e :: rest => (if e.1 ∈ set then 0 else 1) + missing rest set

theorem missing_le_length (adja : Adja) (set : List Int) :
    missing adja set ≤ adja.length := by
  induction adja with
  | nil => exact le_refl _
  | cons e rest ih =>
    simp only [missing, List.length_cons]
    by_cases hm : e.1 ∈ set
    · rw [if_pos hm]
      omega
    · rw [if_neg hm]
      omega

theorem missing_le_cons (adja : Adja) (set : List Int) (c : Int) :
    missing adja (c :: set) ≤ missing adja set := by
  induction adja with
  | nil => exact le_refl _
  | cons e rest ih =>
    simp only [missing]
    by_cases hm : e.1 ∈ set
    · rw [if_pos hm, if_pos (List.mem_cons_of_mem c hm)]
      omega
    · rw [if_neg hm]
      by_cases hm2 : e.1 ∈ c :: set
      · rw [if_pos hm2]
        omega
      · rw [if_neg hm2]
        omega

theorem missing_lt_cons (adja : Adja) (set : List Int) (c : Int)
    (hc : (alookup adja c).isSome) (hcs : c ∉ set) :
    missing adja (c :: set) < missing adja set := by
  induction adja with
  | nil => simp [alookup] at hc
  | cons e rest ih =>
    obtain ⟨k, v⟩ := e
    simp only [missing]
    by_cases hec : k = c
    · have hold : ¬ (k, v).1 ∈ set := by
        intro hmem
        exact hcs (hec ▸ hmem)
      have hnew : (k, v).1 ∈ c :: set := by simp [hec]
      rw [if_neg hold, if_pos hnew]
      have := missing_le_cons rest set c
      omega
    · have hc2 : (alookup rest c).isSome := by
        simp only [alookup] at hc
        rw [if_neg hec] at hc
        exact hc
      specialize ih hc2
      by_cases hm : k ∈ set
      · rw [if_pos hm, if_pos (List.mem_cons_of_mem c hm)]
        omega
      · have hm2 : ¬ (k, v).1 ∈ c :: set := by simp [hec, hm]
        rw [if_neg hm, if_neg hm2]
        omega

theorem followLoop_isSome (adja : Adja) (hclosed : AdjaClosed adja) (pid : Nat) :
    ∀ (fuel : Nat) (prev curId : Int) (cur : AdjaEntry)
      (poly : List (Int × (Int × Int))) (set : List Int) (st : PolyState),
      alookup adja curId = some cur →
      missing adja set < fuel →
      (followLoop adja pid fuel prev curId cur poly set st).isSome := by
  intro fuel
  induction fuel with
  | zero =>
    intro _ _ _ _ set _ _ hm
    omega
  | succ fuel ih =>
    intro prev curId cur poly set st hcur hm
    simp only [followLoop]
    by_cases hdeg : cur.2.length ≠ 2
    · rw [if_pos hdeg]
      rfl
    · rw [if_neg hdeg]
      by_cases hset : curId ∈ set
      · rw [if_pos hset]
        rfl
      · rw [if_neg hset]
        have hlen : cur.2.length = 2 := by omega
        obtain ⟨cpt, cnbrs⟩ := cur
        match cnbrs, hlen with
        | [n0, n1], _ =>
          dsimp only
          have hnmem : (if n0 = prev then n1 else n0) ∈ nbrs adja curId := by
            unfold nbrs
            rw [hcur]
            by_cases h0 : n0 = prev <;> simp [h0]
          have hnk : (alookup adja (if n0 = prev then n1 else n0)).isSome :=
            hclosed curId _ hnmem
          obtain ⟨cur', hcur'⟩ := Option.isSome_iff_exists.mp hnk
          rw [hcur']
          refine ih curId _ cur' _ (curId :: set) _ hcur' ?_
          have hlt : missing adja (curId :: set) < missing adja set :=
            missing_lt_cons adja set curId (by rw [hcur]; rfl) hset
          omega

theorem follow_isSome (adja : Adja) (hclosed : AdjaClosed adja) (pt : Int × Int)
    (u v : Int) (st : PolyState) (hv : (alookup adja v).isSome) :
    (follow adja pt u v st).isSome := by
  unfold follow
  by_cases hseen : (u, v) ∈ st.seen ∨ (v, u) ∈ st.seen
  · rw [if_pos hseen]
    rfl
  · rw [if_neg hseen]
    obtain ⟨cur, hcur⟩ := Option.isSome_iff_exists.mp hv
    rw [hcur]
    refine followLoop_isSome adja hclosed _ (adja.length + 1) u v cur _ [u] _ hcur ?_
    have := missing_le_length adja [u]
    omega

theorem optFold_isSome {α : Type} (f : PolyState → α → Option PolyState) (l : List α) :
    ∀ s : PolyState, (∀ (s' : PolyState) (a : α), a ∈ l → (f s' a).isSome) →
      (optFold f s l).isSome := by
  induction l with
  | nil =>
    intro s _
    rfl
  | cons a rest ih =>
    intro s h
    simp only [optFold]
    obtain ⟨s', hs'⟩ := Option.isSome_iff_exists.mp (h s a (List.mem_cons_self a rest))
    rw [hs']
    exact ih s' (fun s'' b hb => h s'' b (List.mem_cons_of_mem a hb))

theorem processEntry2_isSome (adja : Adja) (hclosed : AdjaClosed adja)
    (st : PolyState) (id : Int) : (processEntry2 adja st id).isSome := by
  unfold processEntry2
  cases halk : alookup adja id with
  | none => rfl
  | some e =>
    obtain ⟨pt, ns⟩ := e
    dsimp only
    by_cases hlen : ns.length ≠ 2
    · rw [if_pos hlen]
      refine optFold_isSome _ ns st ?_
      intro s' n hn
      refine follow_isSome adja hclosed pt id n s' (hclosed id n ?_)
      unfold nbrs
      rw [halk]
      exact hn
    · rw [if_neg hlen]
      rfl

theorem processEntry3_isSome (adja : Adja) (hclosed : AdjaClosed adja)
    (st : PolyState) (id : Int) : (processEntry3 adja st id).isSome := by
  unfold processEntry3
  cases halk : alookup adja id with
  | none => rfl
  | some e =>
    obtain ⟨pt, ns⟩ := e
    dsimp only
    rcases ns with _ | ⟨n0, ns⟩
    · rfl
    · rcases ns with _ | ⟨n1, ns⟩
      · rfl
      · rcases ns with _ | ⟨n2, ns⟩
        · have h0mem : n0 ∈ nbrs adja id := by
            unfold nbrs
            rw [halk]
            simp
          have h1mem : n1 ∈ nbrs adja id := by
            unfold nbrs
            rw [halk]
            simp
          have h0 : (follow adja pt id n0 st).isSome :=
            follow_isSome adja hclosed pt id n0 st (hclosed id n0 h0mem)
          obtain ⟨s1, hs1⟩ := Option.isSome_iff_exists.mp h0
          dsimp only
          rw [hs1]
          exact follow_isSome adja hclosed pt id n1 s1 (hclosed id n1 h1mem)
        · rfl

/-- Claim C9: polyline construction terminates on every finite network
and for every iteration order of the adjacency map: the `follow` loop
always exits (it stops at nodes of degree ≠ 2 and otherwise as soon as
a node repeats in the polyline's node set), so `PolylineCollection::new`
— modelled with explicit fuel that a non-terminating loop would
exhaust — always produces a result. -/
theorem polyline_construction_terminates (order : List Int) (edges : List (Node × Node)) :
    (polylineCollectionNew order edges).isSome := by
  unfold polylineCollectionNew
  have hclosed := adjaClosed_buildAdja edges
  have h2 : (optFold (processEntry2 (buildAdja edges))
      (⟨[], [], []⟩ : PolyState) order).isSome :=
    optFold_isSome _ order _ (fun s a _ => processEntry2_isSome _ hclosed s a)
  obtain ⟨stMid, hmid⟩ := Option.isSome_iff_exists.mp h2
  rw [hmid]
  exact optFold_isSome _ order stMid (fun s a _ => processEntry3_isSome _ hclosed s a)

/-! ## Segment orientation (`src/compare.rs`)

`orientation` computes `atan2(dy, dx)` and adds π when the angle is
negative.  The `f64` computation is modelled over the reals; `atan2` is
the C convention (range `[-π, π]`), which `f64::atan2` follows for the
values reachable here (the `-0.0` inputs of IEEE arise only from
coordinate differences that are model-level zeros as well). -/

/-- Real-number model of `f64::atan2 y x`. -/
noncomputable def atan2 (y x : ℝ) : ℝ :=
  if 0 < x then Real.arctan (y / x)
  else if x < 0 then
    (if 0 ≤ y then Real.arctan (y / x) + Real.pi else Real.arctan (y / x) - Real.pi)
  else
    (if 0 < y then Real.pi / 2 else if y < 0 then -(Real.pi / 2) else 0)

/-- `orientation` from `compare.rs`: the segment's angle folded by
adding π when `atan2` is negative. -/
noncomputable def orientation (line : (ℝ × ℝ) × (ℝ × ℝ)) : ℝ :=
  if 0 ≤ atan2 (line.2.2 - line.1.2) (line.2.1 - line.1.1) then
    atan2 (line.2.2 - line.1.2) (line.2.1 - line.1.1)
  else
    atan2 (line.2.2 - line.1.2) (line.2.1 - line.1.1) + Real.pi

/-- Swap a segment's endpoints. -/
def reverseSeg (line : (ℝ × ℝ) × (ℝ × ℝ)) : (ℝ × ℝ) × (ℝ × ℝ) :=
  (line.2, line.1)

theorem arctan_pos_of_pos (x : ℝ) (hx : 0 < x) : 0 < Real.arctan x := by
  have h := Real.arctan_strictMono hx
  rwa [Real.arctan_zero] at h

theorem arctan_neg_of_neg (x : ℝ) (hx : x < 0) : Real.arctan x < 0 := by
  have h := Real.arctan_strictMono hx
  rwa [Real.arctan_zero] at h

/-- Folding commutes with negating the direction vector as long as the
segment is not horizontal (`dy ≠ 0`). -/
theorem fold_atan2_neg (dx dy : ℝ) (hdy : dy ≠ 0) :
    (if 0 ≤ atan2 (-dy) (-dx) then atan2 (-dy) (-dx) else atan2 (-dy) (-dx) + Real.pi) =
    (if 0 ≤ atan2 dy dx then atan2 dy dx else atan2 dy dx + Real.pi) := by
  have hpi : 0 < Real.pi := Real.pi_pos
  have harctan_lt : ∀ z : ℝ, Real.arctan z < Real.pi / 2 := Real.arctan_lt_pi_div_two
  have harctan_gt : ∀ z : ℝ, -(Real.pi / 2) < Real.arctan z := Real.neg_pi_div_two_lt_arctan
  have hnn : (-dy) / (-dx) = dy / dx := neg_div_neg_eq dy dx
  rcases lt_trichotomy dx 0 with hx | hx | hx
  · -- dx < 0: the original takes the x<0 branch, the reverse the 0<x branch
    have hxr : 0 < -dx := by linarith
    have h1 : atan2 (-dy) (-dx) = Real.arctan (dy / dx) := by
      unfold atan2
      rw [if_pos hxr, hnn]
    have h2 : atan2 dy dx =
        (if 0 ≤ dy then Real.arctan (dy / dx) + Real.pi
         else Real.arctan (dy / dx) - Real.pi) := by
      unfold atan2
      rw [if_neg (by linarith : ¬ 0 < dx), if_pos hx]
    rcases hdy.lt_or_lt with hy | hy
    · -- dy < 0: dy/dx > 0
      have hq : 0 < dy / dx := by
        rw [← hnn]
        exact div_pos (by linarith) hxr
      have ha := arctan_pos_of_pos _ hq
      rw [h1, h2, if_neg (by linarith : ¬ 0 ≤ dy), if_pos (by linarith : 0 ≤ Real.arctan (dy / dx)),
        if_neg (by nlinarith [harctan_lt (dy / dx)] : ¬ 0 ≤ Real.arctan (dy / dx) - Real.pi)]
      ring
    · -- 0 < dy: dy/dx < 0
      have hq : dy / dx < 0 := div_neg_of_pos_of_neg hy hx
      have ha := arctan_neg_of_neg _ hq
      rw [h1, h2, if_pos (by linarith : 0 ≤ dy), if_neg (by linarith : ¬ 0 ≤ Real.arctan (dy / dx)),
        if_pos (by nlinarith [harctan_gt (dy / dx)] : 0 ≤ Real.arctan (dy / dx) + Real.pi)]
  · -- dx = 0: both sides give π / 2
    subst hx
    rcases hdy.lt_or_lt with hy | hy
    · have h1 : atan2 (-dy) (-0) = Real.pi / 2 := by
        unfold atan2
        rw [if_neg (by norm_num), if_neg (by norm_num), if_pos (by linarith : 0 < -dy)]
      have h2 : atan2 dy 0 = -(Real.pi / 2) := by
        unfold atan2
        rw [if_neg (by norm_num), if_neg (by norm_num), if_neg (by linarith : ¬ 0 < dy),
          if_pos hy]
      rw [h1, h2, if_pos (by linarith : 0 ≤ Real.pi / 2),
        if_neg (by linarith : ¬ 0 ≤ -(Real.pi / 2))]
      ring
    · have h1 : atan2 (-dy) (-0) = -(Real.pi / 2) := by
        unfold atan2
        rw [if_neg (by norm_num), if_neg (by norm_num), if_neg (by linarith : ¬ 0 < -dy),
          if_pos (by linarith : -dy < 0)]
      have h2 : atan2 dy 0 = Real.pi / 2 := by
        unfold atan2
        rw [if_neg (by norm_num), if_neg (by norm_num), if_pos hy]
      rw [h1, h2, if_pos (by linarith : 0 ≤ Real.pi / 2),
        if_neg (by linarith : ¬ 0 ≤ -(Real.pi / 2))]
      ring
  · -- 0 < dx: the original takes the 0<x branch, the reverse the x<0 branch
    have hxr : -dx < 0 := by linarith
    have h1 : atan2 dy dx = Real.arctan (dy / dx) := by
      unfold atan2
      rw [if_pos hx]
    have h2 : atan2 (-dy) (-dx) =
        (if 0 ≤ -dy then Real.arctan (dy / dx) + Real.pi
         else Real.arctan (dy / dx) - Real.pi) := by
      unfold atan2
      rw [if_neg (by linarith : ¬ 0 < -dx), if_pos hxr, hnn]
    rcases hdy.lt_or_lt with hy | hy
    · -- dy < 0: dy/dx < 0, reverse takes the +π branch
      have hq : dy / dx < 0 := div_neg_of_neg_of_pos hy hx
      have ha := arctan_neg_of_neg _ hq
      rw [h1, h2, if_pos (by linarith : 0 ≤ -dy),
        if_pos (by nlinarith [harctan_gt (dy / dx)] : 0 ≤ Real.arctan (dy / dx) + Real.pi),
        if_neg (by linarith : ¬ 0 ≤ Real.arctan (dy / dx))]
    · -- 0 < dy: dy/dx > 0, reverse takes the −π branch
      have hq : 0 < dy / dx := div_pos hy hx
      have ha := arctan_pos_of_pos _ hq
      rw [h1, h2, if_neg (by linarith : ¬ 0 ≤ -dy),
        if_neg (by nlinarith [harctan_lt (dy / dx)] : ¬ 0 ≤ Real.arctan (dy / dx) - Real.pi),
        if_pos (by linarith : 0 ≤ Real.arctan (dy / dx))]
      ring

/-- Claim C7 counterexample: for the horizontal segment from `(0,0)` to
`(1,0)`, the folded orientation is `0`, but the reversed segment's
orientation is `π` (`atan2(0, −1) = π` is non-negative, so the fold
does not change it) — the two are different. -/
theorem orientation_not_reversal_invariant :
    orientation ((0, 0), (1, 0)) = 0 ∧
    orientation (reverseSeg ((0, 0), (1, 0))) = Real.pi ∧
    (0 : ℝ) ≠ Real.pi := by
  have hpi : 0 < Real.pi := Real.pi_pos
  refine ⟨?_, ?_, ?_⟩
  · unfold orientation atan2
    norm_num [Real.arctan_zero]
  · unfold orientation reverseSeg atan2
    norm_num [Real.arctan_zero]
    intro h
    linarith
  · exact fun h => Real.pi_ne_zero h.symm

/-- Claim C7 (amended): `orientation (reverse s) = orientation s` holds
for every non-horizontal segment (`dy ≠ 0`); horizontal segments with
`dx ≠ 0` get orientation `0` in one direction and `π` in the other
(equal only modulo π, which is what `orientation_diff` uses). -/
theorem orientation_reversal_invariant_off_horizontal (line : (ℝ × ℝ) × (ℝ × ℝ))
    (hdy : line.2.2 - line.1.2 ≠ 0) :
    orientation (reverseSeg line) = orientation line := by
  unfold orientation reverseSeg
  have h1 : line.1.2 - line.2.2 = -(line.2.2 - line.1.2) := by ring
  have h2 : line.1.1 - line.2.1 = -(line.2.1 - line.1.1) := by ring
  simp only [h1, h2]
  exact fold_atan2_neg (line.2.1 - line.1.1) (line.2.2 - line.1.2) hdy

/-- Instance of the amended orientation claim at the vertical segment
from `(0,0)` to `(0,1)`. -/
theorem orientation_reversal_invariant_witness :
    orientation (reverseSeg ((0, 0), (0, 1))) = orientation ((0, 0), (0, 1)) :=
  orientation_reversal_invariant_off_horizontal ((0, 0), (0, 1)) (by norm_num)

/-! ## Projected bounding boxes (`src/bounding_box.rs`)

`get_3035_bounds` projects the four corners of a geographic box with
`laea::forward` (an external library, abstracted here as `forward`,
mapping `(lat, lon)` to `(east, north)`) and combines them.  Coordinates
are modelled as integer pairs; nothing below depends on their scale. -/

/-- `BoundingBox::get_3035_bounds`: the south-west output takes
`min(sw.east, nw.east)` and `min(sw.north, se.north)`, the north-east
output `max(se.east, ne.east)` and `max(nw.north, ne.north)`. -/
def get_3035_bounds (forward : Int × Int → Int × Int) (sw ne : Int × Int) :
    (Int × Int) × (Int × Int) :=
  ((min (forward sw).1 (forward (ne.1, sw.2)).1,
    min (forward sw).2 (forward (sw.1, ne.2)).2),
   (max (forward (sw.1, ne.2)).1 (forward ne).1,
    max (forward (ne.1, sw.2)).2 (forward ne).2))

/-- The spec's description of `BBox.project()`: the component-wise
min/max envelope over the projections of all four corners. -/
def cornerEnvelope (forward : Int × Int → Int × Int) (sw ne : Int × Int) :
    (Int × Int) × (Int × Int) :=
  ((min (min (forward sw).1 (forward (ne.1, sw.2)).1)
        (min (forward (sw.1, ne.2)).1 (forward ne).1),
    min (min (forward sw).2 (forward (ne.1, sw.2)).2)
        (min (forward (sw.1, ne.2)).2 (forward ne).2)),
   (max (max (forward sw).1 (forward (ne.1, sw.2)).1)
        (max (forward (sw.1, ne.2)).1 (forward ne).1),
    max (max (forward sw).2 (forward (ne.1, sw.2)).2)
        (max (forward (sw.1, ne.2)).2 (forward ne).2)))

/-- A projection for which the code's envelope is not the four-corner
envelope: it moves the south-east corner far west. -/
def fwdCex : Int × Int → Int × Int :=
  fun p =>
    if p = (0, 1) then (-5, 0)
    else if p = (1, 0) then (0, 5)
    else if p = (1, 1) then (1, 1)
    else (0, 0)

/-- Claim C8 counterexample: `get_3035_bounds` does not take the
component-wise min/max over all four projected corners — it only
considers two candidates per component, which differs from the
four-corner envelope as soon as the projection is not monotone in the
corresponding axis. -/
theorem get_3035_bounds_not_corner_envelope :
    get_3035_bounds fwdCex (0, 0) (1, 1) ≠ cornerEnvelope fwdCex (0, 0) (1, 1) := by
  decide

/-- Claim C8 (amended): the four corners are all projected, and whenever
the projection is monotone along the box's edges (east grows with
longitude on the south and north edges, north grows with latitude on
the west and east edges — true of the Lambert projection on its
domain), the code's two-candidate min/max equals the four-corner
envelope; it is never just the projection of `sw` and `ne` alone. -/
theorem get_3035_bounds_eq_corner_envelope (forward : Int × Int → Int × Int)
    (sw ne : Int × Int)
    (h1 : (forward sw).1 ≤ (forward (sw.1, ne.2)).1)
    (h2 : (forward (ne.1, sw.2)).1 ≤ (forward ne).1)
    (h3 : (forward sw).2 ≤ (forward (ne.1, sw.2)).2)
    (h4 : (forward (sw.1, ne.2)).2 ≤ (forward ne).2) :
    get_3035_bounds forward sw ne = cornerEnvelope forward sw ne := by
  unfold get_3035_bounds cornerEnvelope
  refine congrArg₂ Prod.mk (congrArg₂ Prod.mk ?_ ?_) (congrArg₂ Prod.mk ?_ ?_) <;> omega

/-- Instance of the amended envelope claim at the identity projection. -/
theorem get_3035_bounds_eq_corner_envelope_witness :
    get_3035_bounds (fun p => p) (0, 0) (1, 2) = cornerEnvelope (fun p => p) (0, 0) (1, 2) :=
  get_3035_bounds_eq_corner_envelope (fun p => p) (0, 0) (1, 2)
    (by decide) (by decide) (by decide) (by decide)

/-! ## Density-index construction (`src/density.rs`) and weighted
sampling (`src/sampling.rs`)

Coordinates are modelled as integer pairs and the external
`laea::backward` as an abstract `backward`; CSV rows arrive already
parsed as `(x, y, weight)` (I/O and parse failures are propagated by
the Rust code as ordinary errors and are outside these claims).
`rand::distributions::WeightedIndex::new` fails on an empty weight list
(`NoItem`) or when all weights are zero (`AllWeightsZero`); both
`DensityClusters::from_csv` and `Weighted::from_csv` call `.unwrap()`
on it, which panics. -/

/-- `BoundingBox::is_inside` over the coordinate model. -/
def is_inside (sw ne p : Int × Int) : Bool :=
  decide (p.1 ≥ sw.1) && decide (p.2 ≥ sw.2) && decide (p.1 ≤ ne.1) && decide (p.2 ≤ ne.2)

inductive WeightedIndexError where
  | noItem
  | allWeightsZero
  deriving DecidableEq, Repr

/-- `WeightedIndex::new` of the rand crate (for `u32` weights). -/
def weightedIndexNew (ws : List Nat) : Except WeightedIndexError Unit :=
  if ws.isEmpty then .error .noItem
  else if ws.foldl (· + ·) 0 = 0 then .error .allWeightsZero
  else .ok ()

/-- `DensityClusters`: parallel point/weight arrays and the k-d tree
holding projected coordinates with indices into the arrays. -/
structure DensityClusters where
  points : List (Int × Int)
  weights : List Nat
  kdtree : List ((Int × Int) × Nat)
  deriving DecidableEq, Repr

/-- Result of `DensityClusters::from_csv`: a constructed index, or a
panic (the code calls `.unwrap()` on the `WeightedIndex` result). -/
inductive FromCsvResult where
  | ok (d : DensityClusters)
  | panicked
  deriving DecidableEq, Repr

/-- The row loop of `from_csv`: unproject each row, apply the optional
bounding-box filter, and append to the three collections. -/
def densityAccum (backward : Int × Int → Int × Int)
    (bounds : Option ((Int × Int) × (Int × Int))) (rows : List (Int × Int × Nat)) :
    List (Int × Int) × List Nat × List ((Int × Int) × Nat) :=
  rows.foldl
    (fun acc r =>
      if bounds.isNone || (match bounds with
          | some b => is_inside b.1 b.2 (backward (r.1, r.2.1))
          | none => true) then
        (acc.1 ++ [backward (r.1, r.2.1)], acc.2.1 ++ [r.2.2],
         acc.2.2 ++ [((r.1, r.2.1), acc.1.length)])
      else acc)
    ([], [], [])

/-- `DensityClusters::from_csv` on parsed rows. -/
def density_from_csv (backward : Int × Int → Int × Int)
    (bounds : Option ((Int × Int) × (Int × Int))) (rows : List (Int × Int × Nat)) :
    FromCsvResult :=
  match weightedIndexNew (densityAccum backward bounds rows).2.1 with
  | .ok _ =>
    .ok ⟨(densityAccum backward bounds rows).1, (densityAccum backward bounds rows).2.1,
         (densityAccum backward bounds rows).2.2⟩
  | .error _ => .panicked

/-- Claim C5 counterexample: on an empty CSV the construction panics —
it does not return an `EmptyDistribution` (or any other) error value;
no error-return branch exists. -/
theorem density_from_csv_empty_panics :
    density_from_csv (fun p => p) none [] = FromCsvResult.panicked ∧
    ∀ d, density_from_csv (fun p => p) none [] ≠ FromCsvResult.ok d := by
  refine ⟨rfl, ?_⟩
  intro d h
  rw [show density_from_csv (fun p => p) none [] = FromCsvResult.panicked from rfl] at h
  exact FromCsvResult.noConfusion h

/-- Claim C5 (amended): construction panics (via the `unwrap` on
`WeightedIndex::new`) exactly when the weights surviving the
bounding-box filter sum to zero — in particular on empty input, when
every row is discarded, and when all surviving weights are zero;
otherwise it returns the constructed index. -/
theorem density_from_csv_panics_iff (backward : Int × Int → Int × Int)
    (bounds : Option ((Int × Int) × (Int × Int))) (rows : List (Int × Int × Nat)) :
    density_from_csv backward bounds rows = FromCsvResult.panicked ↔
      (densityAccum backward bounds rows).2.1.foldl (· + ·) 0 = 0 := by
  unfold density_from_csv weightedIndexNew
  by_cases h1 : (densityAccum backward bounds rows).2.1.isEmpty
  · have hsum : (densityAccum backward bounds rows).2.1.foldl (· + ·) 0 = 0 := by
      cases hl : (densityAccum backward bounds rows).2.1 with
      | nil => rfl
      | cons a l => rw [hl] at h1; simp [List.isEmpty] at h1
    simp [h1, hsum]
  · by_cases h2 : (densityAccum backward bounds rows).2.1.foldl (· + ·) 0 = 0
    · simp [h1, h2]
    · simp [h1, h2]

/-- The `Weighted` sampler of `src/sampling.rs`. -/
structure Weighted where
  points : List (Int × Int)
  weights : List Nat
  kdtree : List ((Int × Int) × Nat)
  max_dist : Int
  deriving DecidableEq, Repr

/-- `kdtree::distance::squared_euclidean` in two dimensions. -/
def squared_euclidean (a b : Int × Int) : Int :=
  (a.1 - b.1) ^ 2 + (a.2 - b.2) ^ 2

/-- `<Weighted as Sampling>::gen_destination`: project the source,
collect the k-d-tree points within `max_dist²` squared distance, build
a local `WeightedIndex` over their weights — `.unwrap()` panics
(modelled as `Except.error`) when there is no such point or their
weights sum to zero — and draw one of them.  The RNG draw is abstracted
by `pick`; out-of-range array indices (impossible for an index built by
`from_csv`) fall back to defaults. -/
def weighted_gen_destination (forward : Int × Int → Int × Int) (w : Weighted)
    (pick : Nat) (source : Int × Int) : Except Unit (Int × Int) :=
  match weightedIndexNew
      ((w.kdtree.filter
          (fun e => decide (squared_euclidean e.1 (forward source) ≤ w.max_dist ^ 2))).map
        (fun e => w.weights.getD e.2 0)) with
  | .error _ => .error ()
  | .ok _ =>
    .ok (w.points.getD
      ((w.kdtree.filter
          (fun e => decide (squared_euclidean e.1 (forward source) ≤ w.max_dist ^ 2))).getD
        (pick % (w.kdtree.filter
          (fun e => decide (squared_euclidean e.1 (forward source) ≤ w.max_dist ^ 2))).length)
        ((0, 0), 0)).2
      (0, 0))

/-- Claim C6: evaluation at the failing input.  A `Weighted` sampler
with a single point at squared distance 10000 from the source and
`max_dist = 1` panics in `gen_destination` (the `WeightedIndex` unwrap)
instead of returning a `none` destination — and its trait signature
returns a bare point, not an optional one. -/
theorem weighted_gen_destination_panics_out_of_range :
    weighted_gen_destination (fun p => p)
      ⟨[(1, 1)], [1], [((100, 0), 0)], 1⟩ 0 (0, 0) = Except.error () := by
  rfl

end Nori
